import Mathlib

/-!
Verification of the card-rendering computations of the NYT_Xword_Wrapped
repository (src/data_output/app.js), as a shallow embedding in Lean 4.

JavaScript numbers that can only be finite in the modelled code paths are
embedded as rationals; where a division can produce NaN or an infinity the
value is embedded in the JSNum type, which models the four relevant classes
of IEEE doubles (a finite number, NaN, +Infinity, -Infinity).
-/

namespace XwordWrapped

/-- Weekday identifiers, exactly the seven labels of DAY_ORDER in app.js. -/
inductive Day where
  | Mon | Tue | Wed | Thu | Fri | Sat | Sun
deriving DecidableEq, Repr

/-- The constant DAY_ORDER from app.js: Monday through Sunday. -/
def DAY_ORDER : List Day := [.Mon, .Tue, .Wed, .Thu, .Fri, .Sat, .Sun]

/-- A JavaScript number: a finite value (rational), NaN, or a signed infinity. -/
inductive JSNum where
  | num (q : ℚ)
  | nan
  | posInf
  | negInf
deriving DecidableEq, Repr

/-- The JavaScript expression (a / b) * 100 for finite a and b: division by
zero yields a signed infinity or NaN (for 0 / 0), never an exception. -/
def jsDivMul100 (a b : ℚ) : JSNum :=
  if b = 0 then
    if a = 0 then JSNum.nan
    else if 0 < a then JSNum.posInf
    else JSNum.negInf
  else JSNum.num (a / b * 100)

/-- JavaScript subtraction on JSNum values. -/
def jsSub : JSNum → JSNum → JSNum
  | JSNum.nan, _ => JSNum.nan
  | _, JSNum.nan => JSNum.nan
  | JSNum.num a, JSNum.num b => JSNum.num (a - b)
  | JSNum.num _, JSNum.posInf => JSNum.negInf
  | JSNum.num _, JSNum.negInf => JSNum.posInf
  | JSNum.posInf, JSNum.num _ => JSNum.posInf
  | JSNum.posInf, JSNum.posInf => JSNum.nan
  | JSNum.posInf, JSNum.negInf => JSNum.posInf
  | JSNum.negInf, JSNum.num _ => JSNum.negInf
  | JSNum.negInf, JSNum.posInf => JSNum.negInf
  | JSNum.negInf, JSNum.negInf => JSNum.nan

/-- The JavaScript comparison a > b on JSNum values; any comparison involving
NaN is false. -/
def jsGtB : JSNum → JSNum → Bool
  | JSNum.nan, _ => false
  | _, JSNum.nan => false
  | JSNum.num a, JSNum.num b => decide (b < a)
  | JSNum.num _, JSNum.posInf => false
  | JSNum.num _, JSNum.negInf => true
  | JSNum.posInf, JSNum.posInf => false
  | JSNum.posInf, _ => true
  | JSNum.negInf, _ => false

/-- The d3.max reduction over a list of finite numbers: undefined (none) on an
empty list, otherwise the greatest element. -/
def listMax : List ℚ → Option ℚ
  | [] => none
  | x :: xs =>
    match listMax xs with
    | none => some x
    | some m => some (max x m)

theorem listMax_eq_some_of_ne_nil {l : List ℚ} (h : l ≠ []) : ∃ m, listMax l = some m := by
  cases l with
  | nil => exact absurd rfl h
  | cons x xs =>
    cases hx : listMax xs with
    | none => exact ⟨x, by simp [listMax, hx]⟩
    | some m => exact ⟨max x m, by simp [listMax, hx]⟩

theorem le_listMax {l : List ℚ} {x m : ℚ} (hx : x ∈ l) (hm : listMax l = some m) : x ≤ m := by
  induction l generalizing m with
  | nil => cases hx
  | cons y ys ih =>
    rcases List.mem_cons.mp hx with rfl | hxs
    · cases hy : listMax ys with
      | none =>
        simp [listMax, hy] at hm
        exact le_of_eq hm
      | some m' =>
        simp [listMax, hy] at hm
        exact le_trans (le_max_left x m') (le_of_eq hm)
    · cases hy : listMax ys with
      | none =>
        rcases listMax_eq_some_of_ne_nil (l := ys) (List.ne_nil_of_mem hxs) with ⟨m', hm'⟩
        rw [hy] at hm'; cases hm'
      | some m' =>
        simp [listMax, hy] at hm
        exact le_trans (le_trans (ih hxs hy) (le_max_right y m')) (le_of_eq hm)

theorem listMax_mem {l : List ℚ} {m : ℚ} (hm : listMax l = some m) : m ∈ l := by
  induction l generalizing m with
  | nil => cases hm
  | cons y ys ih =>
    cases hy : listMax ys with
    | none =>
      simp [listMax, hy] at hm
      subst hm
      exact List.mem_cons_self y ys
    | some m' =>
      simp [listMax, hy] at hm
      subst hm
      rcases max_choice y m' with h | h
      · rw [h]; exact List.mem_cons_self y ys
      · rw [h]; exact List.mem_cons_of_mem y (ih hy)

/-- One record of the card4 evolution dataset, with the fields read and
written by renderCard4: day_of_year, Day_of_Week, average_time_min, and the
normalized_time field that the normalization pass assigns. -/
structure TrendRec where
  day_of_year : ℚ
  Day_of_Week : Day
  average_time_min : ℚ
  normalized_time : JSNum
deriving DecidableEq, Repr

/-- The maxTimeByDay map of renderCard4: for each weekday, the d3.max of
average_time_min over that weekday's records (undefined for a weekday
with no records). -/
def maxTimeByDay (rows : List TrendRec) (day : Day) : Option ℚ :=
  listMax ((rows.filter (fun r => decide (r.Day_of_Week = day))).map
    (fun r => r.average_time_min))

/-- The per-record normalization assignment of renderCard4:
d.normalized_time = (d.average_time_min / maxTime) * 100, where maxTime is
the weekday maximum; a missing maximum behaves as NaN arithmetic. -/
def normalizeRecord (rows : List TrendRec) (r : TrendRec) : TrendRec :=
  { r with normalized_time :=
      match maxTimeByDay rows r.Day_of_Week with
      | none => JSNum.nan
      | some m => jsDivMul100 r.average_time_min m }

/-- The normalization pass of renderCard4 over the whole dataset. -/
def normalizeRows (rows : List TrendRec) : List TrendRec :=
  rows.map (normalizeRecord rows)

/-- The weekday maximum of any record's own weekday exists and bounds the
record's average_time_min, and is itself attained by some same-weekday
record. -/
theorem maxTimeByDay_own_day {rows : List TrendRec} {r : TrendRec} (hr : r ∈ rows) :
    ∃ m : ℚ, maxTimeByDay rows r.Day_of_Week = some m ∧
      r.average_time_min ≤ m ∧
      ∃ r' ∈ rows, r'.Day_of_Week = r.Day_of_Week ∧ r'.average_time_min = m := by
  have hmem : r.average_time_min ∈
      (rows.filter (fun x => decide (x.Day_of_Week = r.Day_of_Week))).map
        (fun x => x.average_time_min) := by
    exact List.mem_map_of_mem _ (List.mem_filter.mpr ⟨hr, by simp⟩)
  rcases listMax_eq_some_of_ne_nil (List.ne_nil_of_mem hmem) with ⟨m, hm⟩
  refine ⟨m, hm, le_listMax hmem hm, ?_⟩
  have := listMax_mem hm
  rcases List.mem_map.mp this with ⟨r', hr', hval⟩
  have hfil := List.mem_filter.mp hr'
  exact ⟨r', hfil.1, by simpa using hfil.2, hval⟩

/-- C1: when every record of the trend dataset has a positive
average_time_min, the normalization pass of renderCard4 assigns every record
normalized_time = (average_time_min / same-weekday maximum) * 100; that value
lies in [0, 100], and a record attaining its weekday maximum receives
exactly 100. -/
theorem c1_renderCard4_normalization
    (rows : List TrendRec)
    (hpos : ∀ r ∈ rows, 0 < r.average_time_min) :
    ∀ r ∈ rows, ∃ m : ℚ,
      maxTimeByDay rows r.Day_of_Week = some m ∧
      (normalizeRecord rows r).normalized_time = JSNum.num (r.average_time_min / m * 100) ∧
      0 ≤ r.average_time_min / m * 100 ∧
      r.average_time_min / m * 100 ≤ 100 ∧
      (r.average_time_min = m → r.average_time_min / m * 100 = 100) := by
  intro r hr
  rcases maxTimeByDay_own_day hr with ⟨m, hm, hle, r', hr', _hday, hval⟩
  have hmpos : 0 < m := hval ▸ hpos r' hr'
  have hapos : 0 < r.average_time_min := hpos r hr
  refine ⟨m, hm, ?_, ?_, ?_, ?_⟩
  · simp only [normalizeRecord, hm, jsDivMul100, if_neg (ne_of_gt hmpos)]
  · positivity
  · have hdiv : r.average_time_min / m ≤ 1 := by
      rw [div_le_one hmpos]; exact hle
    calc r.average_time_min / m * 100 ≤ 1 * 100 := by
          exact mul_le_mul_of_nonneg_right hdiv (by norm_num)
      _ = 100 := by norm_num
  · intro heq
    rw [heq, div_self (ne_of_gt hmpos)]; norm_num

/-- A concrete dataset for witnessing the C1 theorem. -/
def c1Rows : List TrendRec :=
  [⟨1, Day.Mon, 2, JSNum.nan⟩, ⟨40, Day.Mon, 4, JSNum.nan⟩, ⟨8, Day.Tue, 3, JSNum.nan⟩]

/-- The first record of the witness dataset. -/
def c1Rec : TrendRec := ⟨1, Day.Mon, 2, JSNum.nan⟩

/-- Witness for C1 at a concrete dataset. -/
theorem c1_renderCard4_normalization_witness :
    ∃ m : ℚ,
      maxTimeByDay c1Rows c1Rec.Day_of_Week = some m ∧
      (normalizeRecord c1Rows c1Rec).normalized_time =
        JSNum.num (c1Rec.average_time_min / m * 100) ∧
      0 ≤ c1Rec.average_time_min / m * 100 ∧
      c1Rec.average_time_min / m * 100 ≤ 100 ∧
      (c1Rec.average_time_min = m → c1Rec.average_time_min / m * 100 = 100) :=
  c1_renderCard4_normalization c1Rows (by decide) c1Rec (by decide)

/-- The animateArc computation finalRateTotal =
(data.total_completed / data.total_available) * 100. -/
def finalRateTotal (total_completed total_available : ℚ) : JSNum :=
  jsDivMul100 total_completed total_available

/-- The animateArc computation finalRateGold =
(data.gold_star_completed / data.total_available) * 100. -/
def finalRateGold (gold_star_completed total_available : ℚ) : JSNum :=
  jsDivMul100 gold_star_completed total_available

/-- A single-record dataset whose weekday maximum average_time_min is 0. -/
def c3Rows : List TrendRec := [⟨1, Day.Mon, 0, JSNum.nan⟩]

/-- The record of the c3Rows dataset. -/
def c3Rec : TrendRec := ⟨1, Day.Mon, 0, JSNum.nan⟩

/-- C3 counterexample: with a weekday maximum average_time_min of 0,
renderCard4's normalization produces NaN, not the claimed sentinel zero; and
animateArc's completion rates with total_available = 0 are +Infinity or NaN,
not zero. -/
theorem c3_division_guard_counterexample :
    maxTimeByDay c3Rows Day.Mon = some 0 ∧
    (normalizeRows c3Rows).map (fun r => r.normalized_time) = [JSNum.nan] ∧
    JSNum.nan ≠ JSNum.num 0 ∧
    finalRateTotal 5 0 = JSNum.posInf ∧
    finalRateGold 0 0 = JSNum.nan ∧
    JSNum.posInf ≠ JSNum.num 0 := by
  decide

/-- Any zero-denominator instance of the (a / b) * 100 pattern yields NaN or
a signed infinity, never a finite number. -/
theorem jsDivMul100_zero_denominator (a : ℚ) :
    (jsDivMul100 a 0 = JSNum.nan ∨ jsDivMul100 a 0 = JSNum.posInf ∨
      jsDivMul100 a 0 = JSNum.negInf) ∧
    ∀ q : ℚ, jsDivMul100 a 0 ≠ JSNum.num q := by
  by_cases h0 : a = 0
  · exact ⟨Or.inl (by simp [jsDivMul100, h0]), by simp [jsDivMul100, h0]⟩
  · by_cases hp : 0 < a
    · exact ⟨Or.inr (Or.inl (by simp [jsDivMul100, h0, hp])),
        by simp [jsDivMul100, h0, hp]⟩
    · exact ⟨Or.inr (Or.inr (by simp [jsDivMul100, h0, hp])),
        by simp [jsDivMul100, h0, hp]⟩

/-- C3 amended: the zero-denominator cases are not guarded. A record of a
weekday whose maximum average_time_min is 0 receives NaN or -Infinity as its
normalized_time, never the number 0; and with total_available = 0 the
completion rates of animateArc are NaN or a signed infinity, never a finite
number. The computations are total (they never raise), but no zero sentinel
is produced. -/
theorem c3_division_unguarded
    (rows : List TrendRec) (r : TrendRec) (hr : r ∈ rows)
    (hmax : maxTimeByDay rows r.Day_of_Week = some 0)
    (tc gs : ℚ) :
    ((normalizeRecord rows r).normalized_time = JSNum.nan ∨
      (normalizeRecord rows r).normalized_time = JSNum.negInf) ∧
    (∀ q : ℚ, (normalizeRecord rows r).normalized_time ≠ JSNum.num q) ∧
    (∀ q : ℚ, finalRateTotal tc 0 ≠ JSNum.num q) ∧
    (∀ q : ℚ, finalRateGold gs 0 ≠ JSNum.num q) := by
  have hle : r.average_time_min ≤ 0 := by
    rcases maxTimeByDay_own_day hr with ⟨m, hm, hlem, _⟩
    rw [hmax] at hm
    injection hm with h
    rw [← h] at hlem
    exact hlem
  have hnt : (normalizeRecord rows r).normalized_time = jsDivMul100 r.average_time_min 0 := by
    simp [normalizeRecord, hmax]
  have hmain := jsDivMul100_zero_denominator r.average_time_min
  refine ⟨?_, ?_, fun q => (jsDivMul100_zero_denominator tc).2 q,
    fun q => (jsDivMul100_zero_denominator gs).2 q⟩
  · rcases hmain.1 with h | h | h
    · exact Or.inl (hnt.trans h)
    · exfalso
      have : ¬ (0 < r.average_time_min) := not_lt.mpr hle
      by_cases h0 : r.average_time_min = 0
      · simp [jsDivMul100, h0] at h
      · simp [jsDivMul100, h0, this] at h
    · exact Or.inr (hnt.trans h)
  · intro q
    rw [hnt]
    exact hmain.2 q

/-- Witness for the amended C3 theorem at a concrete record. -/
theorem c3_division_unguarded_witness :
    (((normalizeRecord c3Rows c3Rec).normalized_time = JSNum.nan ∨
      (normalizeRecord c3Rows c3Rec).normalized_time = JSNum.negInf) ∧
    (∀ q : ℚ, (normalizeRecord c3Rows c3Rec).normalized_time ≠ JSNum.num q) ∧
    (∀ q : ℚ, finalRateTotal 5 0 ≠ JSNum.num q) ∧
    (∀ q : ℚ, finalRateGold 0 0 ≠ JSNum.num q)) :=
  c3_division_unguarded c3Rows c3Rec (by decide) (by decide) 5 0

-- --- SLIDE NAVIGATION (currentCardIndex, nextCard, prevCard) ---

/-- The totalCards constant from app.js. -/
def totalCards : Nat := 9

/-- The nextCard index update: currentCardIndex = (currentCardIndex + 1) % totalCards. -/
def nextCard (i : Nat) : Nat := (i + 1) % totalCards

/-- The prevCard index update:
currentCardIndex = (currentCardIndex - 1 + totalCards) % totalCards, written
here over Nat as (i + totalCards - 1) % totalCards, which agrees with the
JavaScript expression for every nonnegative index. -/
def prevCard (i : Nat) : Nat := (i + totalCards - 1) % totalCards

/-- A keyboard navigation action: advance or go back one card. -/
inductive NavAction where
  | next | prev
deriving DecidableEq, Repr

/-- Run a finite sequence of navigation actions from a starting index. -/
def runNav (acts : List NavAction) (i : Nat) : Nat :=
  acts.foldl
    (fun j a => match a with
      | NavAction.next => nextCard j
      | NavAction.prev => prevCard j) i

theorem runNav_lt (acts : List NavAction) (i : Nat) (hi : i < totalCards) :
    runNav acts i < totalCards := by
  induction acts generalizing i with
  | nil => exact hi
  | cons a as ih =>
    have h9 : 0 < totalCards := by decide
    cases a with
    | next => simpa [runNav, List.foldl] using ih (nextCard i) (Nat.mod_lt _ h9)
    | prev => simpa [runNav, List.foldl] using ih (prevCard i) (Nat.mod_lt _ h9)

/-- C10: starting from index 0, every finite sequence of nextCard and
prevCard calls leaves currentCardIndex in the range 0..totalCards - 1, and on
any in-range index a nextCard immediately followed by a prevCard (and a
prevCard followed by a nextCard) restores the prior value. -/
theorem c10_card_navigation
    (acts : List NavAction) (i : Nat) (hi : i < totalCards) :
    runNav acts 0 < totalCards ∧
    prevCard (nextCard i) = i ∧
    nextCard (prevCard i) = i := by
  have hi9 : i < 9 := hi
  refine ⟨runNav_lt acts 0 (by decide), ?_, ?_⟩
  · interval_cases i <;> decide
  · interval_cases i <;> decide

/-- Witness for C10 with a concrete action sequence and index. -/
theorem c10_card_navigation_witness :
    runNav [NavAction.next, NavAction.next, NavAction.prev] 0 < totalCards ∧
    prevCard (nextCard 5) = 5 ∧
    nextCard (prevCard 5) = 5 :=
  c10_card_navigation [NavAction.next, NavAction.next, NavAction.prev] 5 (by decide)

-- --- CARD 2 (weekly summary sort) ---

/-- One entry of the weekly_summary dataset as read by renderCard2. -/
structure WeekRec where
  Day_of_Week : Day
  fastest_in_minutes : ℚ
  average_in_minutes : ℚ
  slowest_in_minutes : ℚ
deriving DecidableEq, Repr

/-- The position of a weekday in DAY_ORDER (dayOrder.indexOf in app.js). -/
def dayIdx : Day → Nat
  | Day.Mon => 0
  | Day.Tue => 1
  | Day.Wed => 2
  | Day.Thu => 3
  | Day.Fri => 4
  | Day.Sat => 5
  | Day.Sun => 6

/-- The ordering induced by renderCard2's comparator
dayOrder.indexOf(a.Day_of_Week) - dayOrder.indexOf(b.Day_of_Week): entry a
sorts no later than entry b when its weekday position is no larger. -/
def card2LE (a b : WeekRec) : Prop := dayIdx a.Day_of_Week ≤ dayIdx b.Day_of_Week

instance : DecidableRel card2LE := fun _ _ => Nat.decLe _ _

instance : IsTotal WeekRec card2LE := ⟨fun _ _ => Nat.le_total _ _⟩

instance : IsTrans WeekRec card2LE := ⟨fun _ _ _ => Nat.le_trans⟩

/-- The strict version of the renderCard2 ordering. -/
def card2LT (a b : WeekRec) : Prop := dayIdx a.Day_of_Week < dayIdx b.Day_of_Week

instance : IsAntisymm WeekRec card2LT :=
  ⟨fun _ _ h1 h2 => absurd h1 (Nat.lt_asymm h2)⟩

/-- The sort performed by renderCard2: the ECMAScript stable sort with the
indexOf comparator, modelled as a stable insertion sort with respect to
card2LE. -/
def sortCard2 (chartData : List WeekRec) : List WeekRec :=
  List.insertionSort card2LE chartData

/-- Two distinct weekly_summary entries sharing the Mon label. -/
def c6RecA : WeekRec := ⟨Day.Mon, 1, 2, 3⟩

/-- A second Mon entry with different timing values. -/
def c6RecB : WeekRec := ⟨Day.Mon, 4, 5, 6⟩

/-- C6 counterexample: for an input with two distinct entries carrying the
same Day_of_Week label, the stable sort of renderCard2 returns different
results on two permutations of the same input array, so the sorted result is
not the same for every permutation. -/
theorem c6_sort_counterexample :
    List.Perm [c6RecA, c6RecB] [c6RecB, c6RecA] ∧
    sortCard2 [c6RecA, c6RecB] = [c6RecA, c6RecB] ∧
    sortCard2 [c6RecB, c6RecA] = [c6RecB, c6RecA] ∧
    sortCard2 [c6RecA, c6RecB] ≠ sortCard2 [c6RecB, c6RecA] := by
  decide

/-- The weekday position function is injective. -/
theorem dayIdx_inj {a b : Day} (h : dayIdx a = dayIdx b) : a = b := by
  revert h
  cases a <;> cases b <;> decide

/-- C6 amended: renderCard2's sort always arranges the entries in
Monday-to-Sunday order (nondecreasing weekday position) and permutes the
input; and when the entries carry pairwise distinct Day_of_Week labels, as
in the canonical seven-entry weekly_summary artifact, the sorted result is
the same for every permutation of the input array. -/
theorem c6_renderCard2_sort
    (xs ys : List WeekRec)
    (hperm : List.Perm xs ys)
    (hnodup : xs.Pairwise (fun a b => a.Day_of_Week ≠ b.Day_of_Week)) :
    List.Sorted card2LE (sortCard2 xs) ∧
    List.Perm (sortCard2 xs) xs ∧
    sortCard2 xs = sortCard2 ys := by
  have hsymm : ∀ {a b : WeekRec},
      a.Day_of_Week ≠ b.Day_of_Week → b.Day_of_Week ≠ a.Day_of_Week :=
    fun h => h.symm
  have hsx : List.Sorted card2LE (sortCard2 xs) := List.sorted_insertionSort card2LE xs
  have hsy : List.Sorted card2LE (sortCard2 ys) := List.sorted_insertionSort card2LE ys
  have hpx : List.Perm (sortCard2 xs) xs := List.perm_insertionSort card2LE xs
  have hpy : List.Perm (sortCard2 ys) ys := List.perm_insertionSort card2LE ys
  refine ⟨hsx, hpx, ?_⟩
  have hnodup_sx : (sortCard2 xs).Pairwise (fun a b => a.Day_of_Week ≠ b.Day_of_Week) :=
    (hpx.pairwise_iff hsymm).mpr hnodup
  have hnodup_y : ys.Pairwise (fun a b => a.Day_of_Week ≠ b.Day_of_Week) :=
    (hperm.pairwise_iff hsymm).mp hnodup
  have hnodup_sy : (sortCard2 ys).Pairwise (fun a b => a.Day_of_Week ≠ b.Day_of_Week) :=
    (hpy.pairwise_iff hsymm).mpr hnodup_y
  have hstrict : ∀ {l : List WeekRec}, List.Sorted card2LE l →
      l.Pairwise (fun a b => a.Day_of_Week ≠ b.Day_of_Week) →
      l.Pairwise card2LT := by
    intro l hs hn
    exact (hs.and hn).imp (fun h =>
      lt_of_le_of_ne h.1 (fun heq => h.2 (dayIdx_inj heq)))
  have hperm_s : List.Perm (sortCard2 xs) (sortCard2 ys) :=
    (hpx.trans hperm).trans hpy.symm
  exact List.eq_of_perm_of_sorted hperm_s (hstrict hsx hnodup_sx) (hstrict hsy hnodup_sy)

/-- A three-entry weekly_summary sample with distinct weekday labels. -/
def c6Rows : List WeekRec :=
  [⟨Day.Wed, 1, 2, 3⟩, ⟨Day.Mon, 4, 5, 6⟩, ⟨Day.Sun, 7, 8, 9⟩]

/-- A permutation of the c6Rows sample. -/
def c6RowsPerm : List WeekRec :=
  [⟨Day.Sun, 7, 8, 9⟩, ⟨Day.Wed, 1, 2, 3⟩, ⟨Day.Mon, 4, 5, 6⟩]

/-- Witness for the amended C6 theorem on concrete permuted inputs. -/
theorem c6_renderCard2_sort_witness :
    List.Sorted card2LE (sortCard2 c6Rows) ∧
    List.Perm (sortCard2 c6Rows) c6Rows ∧
    sortCard2 c6Rows = sortCard2 c6RowsPerm :=
  c6_renderCard2_sort c6Rows c6RowsPerm (by decide) (by decide)

-- --- CARD 3 (histograms, shared frequency scale) ---

/-- One bin of the flat histograms artifact as read by renderCard3. -/
structure HistBin where
  Day_of_Week : Day
  bin_index : ℚ
  frequency : ℚ
  time_end_min : ℚ
deriving DecidableEq, Repr

/-- The cross-weekday reduction of renderCard3: maxFrequency = d3.max over
the frequency of every bin of the whole artifact. -/
def maxFrequency (rawData : List HistBin) : Option ℚ :=
  listMax (rawData.map (fun d => d.frequency))

/-- The per-weekday render calls issued by renderCard3, in DAY_ORDER: each
weekday with at least one bin is rendered with its own bins and the one
shared maxFrequency computed over the whole artifact before the loop. -/
def card3Calls (rawData : List HistBin) : List (Day × List HistBin × Option ℚ) :=
  DAY_ORDER.filterMap (fun day =>
    if (rawData.filter (fun d => decide (d.Day_of_Week = day))).isEmpty then none
    else some (day, rawData.filter (fun d => decide (d.Day_of_Week = day)),
      maxFrequency rawData))

/-- The y-scale upper bound used by renderDayHistogram: maxFrequency * 1.1. -/
def histYUpper (mf : ℚ) : ℚ := mf * (11 / 10)

/-- C4: the frequency scale shared by all weekday histograms is one maximum
taken across every bin of the whole artifact; every per-weekday render call
receives exactly that value, so every weekday's y-scale upper bound is 1.1
times the same cross-weekday maximum; the maximum dominates every bin
frequency (in particular every weekday-local maximum) and is attained by
some bin. -/
theorem c4_shared_frequency_scale
    (rawData : List HistBin) (hne : rawData ≠ []) :
    ∃ M : ℚ,
      maxFrequency rawData = some M ∧
      (∀ c ∈ card3Calls rawData, c.2.2 = some M) ∧
      (∀ c ∈ card3Calls rawData, ∀ c' ∈ card3Calls rawData,
        Option.map histYUpper c.2.2 = Option.map histYUpper c'.2.2) ∧
      (∀ b ∈ rawData, b.frequency ≤ M) ∧
      (∃ b ∈ rawData, b.frequency = M) := by
  have hmapne : rawData.map (fun d => d.frequency) ≠ [] := by
    simpa using hne
  rcases listMax_eq_some_of_ne_nil hmapne with ⟨M, hM⟩
  have hcall : ∀ c ∈ card3Calls rawData, c.2.2 = some M := by
    intro c hc
    rcases List.mem_filterMap.mp hc with ⟨day, _hday, hfc⟩
    by_cases hemp : (rawData.filter (fun d => decide (d.Day_of_Week = day))).isEmpty
    · rw [if_pos hemp] at hfc; cases hfc
    · rw [if_neg hemp] at hfc
      injection hfc with h
      rw [← h]
      exact hM
  refine ⟨M, hM, hcall, ?_, ?_, ?_⟩
  · intro c hc c' hc'
    rw [hcall c hc, hcall c' hc']
  · intro b hb
    exact le_listMax (List.mem_map_of_mem _ hb) hM
  · rcases List.mem_map.mp (listMax_mem hM) with ⟨b, hb, hval⟩
    exact ⟨b, hb, hval⟩

/-- A concrete histograms artifact with two weekdays. -/
def c4Rows : List HistBin :=
  [⟨Day.Mon, 0, 3, 5⟩, ⟨Day.Mon, 1, 7, 10⟩, ⟨Day.Tue, 0, 2, 4⟩]

/-- Witness for C4 at a concrete artifact. -/
theorem c4_shared_frequency_scale_witness :
    ∃ M : ℚ,
      maxFrequency c4Rows = some M ∧
      (∀ c ∈ card3Calls c4Rows, c.2.2 = some M) ∧
      (∀ c ∈ card3Calls c4Rows, ∀ c' ∈ card3Calls c4Rows,
        Option.map histYUpper c.2.2 = Option.map histYUpper c'.2.2) ∧
      (∀ b ∈ c4Rows, b.frequency ≤ M) ∧
      (∃ b ∈ c4Rows, b.frequency = M) :=
  c4_shared_frequency_scale c4Rows (by decide)

-- --- CARDS 6 AND 7 (fastest puzzle selection) ---

/-- One record of the fast_days dataset as read by renderCard6 and
renderCard7; puzzle_id is optional and may also be present but empty. -/
structure FastRec where
  Date : String
  Day_of_Week : Day
  Author : String
  Time_formatted : Option String
  Deviation_Percent_Label : Option String
  puzzle_id : Option String
deriving DecidableEq, Repr

/-- The result of _parseDeviation: a finite number, or Infinity for a null
or numerically unparseable label. -/
inductive DevValue where
  | fin (q : ℚ)
  | inf
deriving DecidableEq, Repr

/-- Strict JavaScript less-than on parsed deviations; Infinity is above every
finite value and not below itself. -/
def devLtB : DevValue → DevValue → Bool
  | DevValue.fin a, DevValue.fin b => decide (a < b)
  | DevValue.fin _, DevValue.inf => true
  | DevValue.inf, _ => false

/-- Interpretation of a parsed deviation in WithTop of the rationals, for
order reasoning. -/
def devInterp : DevValue → WithTop ℚ
  | DevValue.fin q => (q : WithTop ℚ)
  | DevValue.inf => ⊤

theorem devLtB_iff (a b : DevValue) : devLtB a b = true ↔ devInterp a < devInterp b := by
  cases a <;> cases b <;>
    simp [devLtB, devInterp, WithTop.coe_lt_coe, WithTop.coe_lt_top, not_top_lt]

/-- The numeric value of a list of decimal digit characters. -/
def digitsVal (ds : List Char) : Nat :=
  ds.foldl (fun a c => a * 10 + (c.toNat - Char.toNat '0')) 0

/-- The mantissa step of JavaScript parseFloat over the cleaned alphabet:
an integer digit run and/or a fractional digit run around an optional dot,
with at least one digit; everything after the mantissa is ignored. -/
def parseMantissa (cs : List Char) : Option ℚ :=
  match cs.dropWhile Char.isDigit with
  | '.' :: r2 =>
    if (cs.takeWhile Char.isDigit).isEmpty && (r2.takeWhile Char.isDigit).isEmpty then none
    else some ((digitsVal (cs.takeWhile Char.isDigit) : ℚ) +
      (digitsVal (r2.takeWhile Char.isDigit) : ℚ) / (10 : ℚ) ^ (r2.takeWhile Char.isDigit).length)
  | _ =>
    if (cs.takeWhile Char.isDigit).isEmpty then none
    else some (digitsVal (cs.takeWhile Char.isDigit) : ℚ)

/-- JavaScript parseFloat over the character alphabet of digits, dot and
minus (the only characters the cleaning regex keeps): an optional leading
minus sign, then a mantissa; none models NaN. -/
def parseFloatCleaned (cs : List Char) : Option ℚ :=
  match cs with
  | '-' :: rest => (parseMantissa rest).map (fun q => -q)
  | _ => parseMantissa cs

/-- The character class [0-9.-] kept by the replace call of _parseDeviation. -/
def keepChar (c : Char) : Bool := c.isDigit || c == '.' || c == '-'

/-- The _parseDeviation helper of renderCard6 and renderCard7: a null label
maps to Infinity; otherwise every character outside [0-9.-] is stripped and
the remainder is given to parseFloat; a non-finite result maps to
Infinity. -/
def parseDeviation (label : Option String) : DevValue :=
  match label with
  | none => DevValue.inf
  | some s =>
    match parseFloatCleaned (s.data.filter keepChar) with
    | none => DevValue.inf
    | some q => DevValue.fin q

/-- The d3.least selection by accessor used on the fast_days dataset: the
first element whose accessor value is strictly below that of every element
retained so far. -/
def leastBy {α : Type} (f : α → DevValue) : List α → Option α
  | [] => none
  | x :: xs =>
    some (xs.foldl (fun best d => if devLtB (f d) (f best) then d else best) x)

theorem leastBy_fold_spec {α : Type} (f : α → DevValue) (xs : List α) :
    ∀ x : α,
      (xs.foldl (fun best d => if devLtB (f d) (f best) then d else best) x) ∈ x :: xs ∧
      ∀ y ∈ x :: xs,
        devInterp (f (xs.foldl (fun best d => if devLtB (f d) (f best) then d else best) x)) ≤
          devInterp (f y) := by
  induction xs with
  | nil =>
    intro x
    refine ⟨List.mem_cons_self x [], ?_⟩
    intro y hy
    rcases List.mem_cons.mp hy with rfl | hy'
    · exact le_refl _
    · cases hy'
  | cons d ds ih =>
    intro x
    by_cases hlt : devLtB (f d) (f x) = true
    · rcases ih d with ⟨hmem, hmin⟩
      rw [List.foldl_cons, if_pos hlt]
      refine ⟨List.mem_cons_of_mem x hmem, ?_⟩
      intro y hy
      rcases List.mem_cons.mp hy with rfl | hy'
      · exact le_trans (hmin d (List.mem_cons_self d ds))
          (le_of_lt ((devLtB_iff _ _).mp hlt))
      · exact hmin y hy'
    · rcases ih x with ⟨hmem, hmin⟩
      rw [List.foldl_cons, if_neg hlt]
      have hxd : devInterp (f x) ≤ devInterp (f d) :=
        le_of_not_lt (fun h => hlt ((devLtB_iff (f d) (f x)).mpr h))
      constructor
      · rcases List.mem_cons.mp hmem with heq | hds
        · rw [heq]
          exact List.mem_cons_self x (d :: ds)
        · exact List.mem_cons_of_mem x (List.mem_cons_of_mem d hds)
      · intro y hy
        rcases List.mem_cons.mp hy with rfl | hy'
        · exact hmin y (List.mem_cons_self y ds)
        · rcases List.mem_cons.mp hy' with rfl | hds
          · exact le_trans (hmin x (List.mem_cons_self x ds)) hxd
          · exact hmin y (List.mem_cons_of_mem x hds)

/-- The d3.least selection on a non-empty list returns a member whose parsed
value is minimal. -/
theorem leastBy_spec {α : Type} (f : α → DevValue) (xs : List α) (hne : xs ≠ []) :
    ∃ r, leastBy f xs = some r ∧ r ∈ xs ∧
      ∀ y ∈ xs, devInterp (f r) ≤ devInterp (f y) := by
  cases xs with
  | nil => exact absurd rfl hne
  | cons x rest =>
    rcases leastBy_fold_spec f rest x with ⟨hmem, hmin⟩
    exact ⟨_, rfl, hmem, hmin⟩

/-- The possible outcomes of renderCard7's replay-selection step. -/
inductive Card7Outcome where
  | emptySkip
  | noIdSkip
  | fetchReplay (pid : String)
deriving DecidableEq, Repr

/-- The replay-selection step of renderCard7: an empty fast_days dataset is
a warn-and-return; otherwise the d3.least record by parsed deviation label
is taken, a falsy puzzle_id (absent or empty) is a warn-and-return, and
otherwise that record's puzzle_id names the fetched per-puzzle completion
file. -/
def card7SelectReplay (tableData : List FastRec) : Card7Outcome :=
  if tableData.isEmpty then Card7Outcome.emptySkip
  else
    match leastBy (fun d => parseDeviation d.Deviation_Percent_Label) tableData with
    | none => Card7Outcome.noIdSkip
    | some r =>
      match r.puzzle_id with
      | none => Card7Outcome.noIdSkip
      | some pid =>
        if pid = "" then Card7Outcome.noIdSkip else Card7Outcome.fetchReplay pid

/-- C5: on a non-empty fast_days dataset the record selected for the replay
showcase minimizes the parsed deviation label over the whole dataset; its
puzzle_id (when present and non-empty) is the identifier used for the fetch,
and when the minimal record has no puzzle_id the replay is skipped without
raising. -/
theorem c5_fastest_replay_selection
    (tableData : List FastRec) (hne : tableData ≠ []) :
    ∃ r, leastBy (fun d => parseDeviation d.Deviation_Percent_Label) tableData = some r ∧
      r ∈ tableData ∧
      (∀ y ∈ tableData,
        devInterp (parseDeviation r.Deviation_Percent_Label) ≤
          devInterp (parseDeviation y.Deviation_Percent_Label)) ∧
      (∀ pid, r.puzzle_id = some pid → pid ≠ "" →
        card7SelectReplay tableData = Card7Outcome.fetchReplay pid) ∧
      (r.puzzle_id = none → card7SelectReplay tableData = Card7Outcome.noIdSkip) := by
  rcases leastBy_spec (fun d => parseDeviation d.Deviation_Percent_Label) tableData hne
    with ⟨r, hleast, hmem, hmin⟩
  have hempty : tableData.isEmpty = false := by
    cases tableData with
    | nil => exact absurd rfl hne
    | cons a l => rfl
  refine ⟨r, hleast, hmem, hmin, ?_, ?_⟩
  · intro pid hpid hpne
    simp only [card7SelectReplay, hempty, Bool.false_eq_true, if_false, hleast, hpid,
      if_neg hpne]
  · intro hnone
    simp only [card7SelectReplay, hempty, Bool.false_eq_true, if_false, hleast, hnone]

/-- A concrete fast_days dataset for the C5 witness. -/
def c5Rows : List FastRec :=
  [⟨"2024-03-02", Day.Sat, "A. Author", some "12m 3s", some "-18%", some "p-100"⟩,
   ⟨"2024-05-09", Day.Thu, "B. Builder", some "9m 40s", some "-42%", some "p-200"⟩,
   ⟨"2024-07-21", Day.Sun, "C. Cruci", some "30m 1s", some "-7%", none⟩]

/-- Witness for C5 at a concrete dataset. -/
theorem c5_fastest_replay_selection_witness :
    ∃ r, leastBy (fun d => parseDeviation d.Deviation_Percent_Label) c5Rows = some r ∧
      r ∈ c5Rows ∧
      (∀ y ∈ c5Rows,
        devInterp (parseDeviation r.Deviation_Percent_Label) ≤
          devInterp (parseDeviation y.Deviation_Percent_Label)) ∧
      (∀ pid, r.puzzle_id = some pid → pid ≠ "" →
        card7SelectReplay c5Rows = Card7Outcome.fetchReplay pid) ∧
      (r.puzzle_id = none → card7SelectReplay c5Rows = Card7Outcome.noIdSkip) :=
  c5_fastest_replay_selection c5Rows (by decide)

/-- C9: _parseDeviation maps a null label and a numerically unparseable
label to Infinity, and whenever some record of the dataset has a parseable
label, the record chosen by the d3.least selection of renderCard6 and
renderCard7 itself has a parseable label (with a value no larger). -/
theorem c9_unparseable_never_chosen
    (tableData : List FastRec) (r : FastRec) (q : ℚ)
    (hr : r ∈ tableData)
    (hq : parseDeviation r.Deviation_Percent_Label = DevValue.fin q) :
    parseDeviation none = DevValue.inf ∧
    parseDeviation (some "N/A") = DevValue.inf ∧
    ∃ r' q',
      leastBy (fun d => parseDeviation d.Deviation_Percent_Label) tableData = some r' ∧
      parseDeviation r'.Deviation_Percent_Label = DevValue.fin q' ∧ q' ≤ q := by
  refine ⟨rfl, by decide, ?_⟩
  rcases leastBy_spec (fun d => parseDeviation d.Deviation_Percent_Label) tableData
    (List.ne_nil_of_mem hr) with ⟨r', hleast, _hmem, hmin⟩
  have hler := hmin r hr
  rw [hq] at hler
  cases hval : parseDeviation r'.Deviation_Percent_Label with
  | inf =>
    rw [hval] at hler
    exact absurd hler (by simp [devInterp])
  | fin q' =>
    rw [hval] at hler
    refine ⟨r', q', hleast, hval, ?_⟩
    have : (q' : WithTop ℚ) ≤ (q : WithTop ℚ) := hler
    exact_mod_cast this

/-- A dataset mixing unparseable and parseable deviation labels. -/
def c9Rows : List FastRec :=
  [⟨"2024-01-01", Day.Mon, "D. Dev", some "5m 5s", some "N/A", some "p-1"⟩,
   ⟨"2024-01-08", Day.Mon, "E. Ed", some "6m 6s", some "-25%", some "p-2"⟩]

/-- The parseable record of the c9Rows dataset. -/
def c9Rec : FastRec := ⟨"2024-01-08", Day.Mon, "E. Ed", some "6m 6s", some "-25%", some "p-2"⟩

/-- Witness for C9 at a concrete dataset. -/
theorem c9_unparseable_never_chosen_witness :
    parseDeviation none = DevValue.inf ∧
    parseDeviation (some "N/A") = DevValue.inf ∧
    ∃ r' q',
      leastBy (fun d => parseDeviation d.Deviation_Percent_Label) c9Rows = some r' ∧
      parseDeviation r'.Deviation_Percent_Label = DevValue.fin q' ∧ q' ≤ -25 :=
  c9_unparseable_never_chosen c9Rows c9Rec (-25) (by decide) (by decide)

-- --- formatTimeToMMSS ---

/-- JavaScript whitespace characters matched by the regex class of
formatTimeToMMSS. -/
def jsSpace (c : Char) : Bool :=
  c == ' ' || c == '\t' || c == '\n' || c == '\r' || c == '\x0b' || c == '\x0c'

/-- Match of the regex digits, optional spaces, m, optional spaces, digits,
optional spaces, s at the start of the character list, returning the two
digit groups. The digit runs are maximal: backtracking a greedy digit run
can never turn a failure into a match here, because a shorter run leaves a
digit where the literal m or s is required. -/
def matchMMSSAt (cs : List Char) : Option (List Char × List Char) :=
  if (cs.takeWhile Char.isDigit).isEmpty then none
  else
    match ((cs.dropWhile Char.isDigit).dropWhile jsSpace) with
    | 'm' :: r3 =>
      if ((r3.dropWhile jsSpace).takeWhile Char.isDigit).isEmpty then none
      else
        match (((r3.dropWhile jsSpace).dropWhile Char.isDigit).dropWhile jsSpace) with
        | 's' :: _ =>
          some (cs.takeWhile Char.isDigit, (r3.dropWhile jsSpace).takeWhile Char.isDigit)
        | _ => none
    | _ => none

/-- The unanchored regex search of String.prototype.match: try the pattern
at each successive start position and return the groups of the leftmost
match. -/
def findMMSS : List Char → Option (List Char × List Char)
  | [] => none
  | c :: cs =>
    match matchMMSSAt (c :: cs) with
    | some g => some g
    | none => findMMSS cs

/-- The seconds post-processing of formatTimeToMMSS:
String.prototype.padStart(2, Char '0') on the seconds digit group. -/
def padTwo (ds : List Char) : List Char :=
  if 2 ≤ ds.length then ds else List.replicate (2 - ds.length) '0' ++ ds

/-- The minutes post-processing of formatTimeToMMSS: one leading zero is
removed when the group has more than one character and starts with '0'. -/
def stripOneLeadingZero : List Char → List Char
  | '0' :: c :: rest => c :: rest
  | ds => ds

/-- The formatTimeToMMSS utility of app.js: a falsy input yields "00:00"; a
string in which the pattern does not occur is returned unchanged; otherwise
the two digit groups are rendered minutes, colon, seconds. -/
def formatTimeToMMSS (timeStr : Option String) : String :=
  match timeStr with
  | none => "00:00"
  | some s =>
    if s = "" then "00:00"
    else
      match findMMSS s.data with
      | none => s
      | some (d1, d2) =>
        String.mk (stripOneLeadingZero d1 ++ (':' :: padTwo d2))

/-- C8: formatTimeToMMSS is total; every falsy input (null, undefined, the
empty string) yields "00:00"; a non-matching string is returned unchanged;
and a matching string yields the minutes digits with at most one leading
zero removed (so "007m 5s" yields "07:05"), a colon, and the seconds digits
left-padded with '0' to at least two characters. -/
theorem c8_formatTimeToMMSS (s : String) (hs : s ≠ "") :
    (formatTimeToMMSS none = "00:00" ∧
     formatTimeToMMSS (some "") = "00:00" ∧
     formatTimeToMMSS (some "007m 5s") = "07:05") ∧
    (findMMSS s.data = none → formatTimeToMMSS (some s) = s) ∧
    (∀ d1 d2, findMMSS s.data = some (d1, d2) →
      formatTimeToMMSS (some s) =
        String.mk (stripOneLeadingZero d1 ++ (':' :: padTwo d2))) := by
  refine ⟨⟨rfl, by decide, by decide⟩, ?_, ?_⟩
  · intro hfind
    simp only [formatTimeToMMSS, if_neg hs, hfind]
  · intro d1 d2 hfind
    simp only [formatTimeToMMSS, if_neg hs, hfind]

/-- Witness for C8 at concrete matching and non-matching strings. -/
theorem c8_formatTimeToMMSS_witness :
    formatTimeToMMSS (some "12m 3s") =
      String.mk (stripOneLeadingZero ['1', '2'] ++ (':' :: padTwo ['3'])) ∧
    formatTimeToMMSS (some "hello") = "hello" :=
  ⟨(c8_formatTimeToMMSS "12m 3s" (by decide)).2.2 ['1', '2'] ['3'] (by decide),
   (c8_formatTimeToMMSS "hello" (by decide)).2.1 (by decide)⟩

-- --- CARD 4 (coercion pass, idempotence, biggest improver) ---

/-- The parseInt coercion applied to day_of_year: truncation toward zero of
a finite numeric value. -/
def ratTrunc (q : ℚ) : ℤ := if 0 ≤ q then ⌊q⌋ else ⌈q⌉

/-- The coercion step of renderCard4: day_of_year goes through parseInt and
average_time_min through parseFloat, the identity on a finite number. -/
def coerceRec (r : TrendRec) : TrendRec :=
  { r with day_of_year := (ratTrunc r.day_of_year : ℚ) }

/-- The coercion-plus-normalization pass of renderCard4. -/
def card4Pass (rows : List TrendRec) : List TrendRec :=
  normalizeRows (rows.map coerceRec)

/-- The records of one weekday in dataset order: the value stored under that
weekday by d3.group. -/
def dayRecords (rows : List TrendRec) (d : Day) : List TrendRec :=
  rows.filter (fun r => decide (r.Day_of_Week = d))

/-- The copy-and-sort step of the biggest-improver computation: the
ECMAScript stable sort of the weekday's records ascending by day_of_year. -/
def sortDoy (data : List TrendRec) : List TrendRec :=
  List.insertionSort (fun a b => a.day_of_year ≤ b.day_of_year) data

/-- A default record for the total head and last accessors; it is never
reached on a weekday with at least two points. -/
def defaultTrendRec : TrendRec := ⟨0, Day.Mon, 0, JSNum.nan⟩

/-- The improvement of one weekday: the first normalized_time of the series
sorted by day_of_year minus the last. -/
def dayImprovement (rows : List TrendRec) (d : Day) : JSNum :=
  jsSub ((sortDoy (dayRecords rows d)).headD defaultTrendRec).normalized_time
    ((sortDoy (dayRecords rows d)).getLastD defaultTrendRec).normalized_time

/-- The biggestImprover accumulator of renderCard4. -/
structure Improver where
  day : Option Day
  improvement : JSNum
deriving DecidableEq, Repr

/-- One step of the biggest-improver loop: a weekday with more than one
point replaces the accumulator exactly when its improvement is strictly
greater under the JavaScript comparison. -/
def improverStep (rows : List TrendRec) (acc : Improver) (d : Day) : Improver :=
  if 1 < (dayRecords rows d).length then
    if jsGtB (dayImprovement rows d) acc.improvement then
      { day := some d, improvement := dayImprovement rows d }
    else acc
  else acc

/-- The key order of the d3.group map: weekdays in order of first appearance
in the dataset; the seen accumulator holds the keys already inserted. -/
def firstOccurAux (seen : List Day) : List Day → List Day
  | [] => []
  | d :: ds =>
    if d ∈ seen then firstOccurAux seen ds
    else d :: firstOccurAux (d :: seen) ds

/-- The iteration order of normalizedDataByDay.forEach. -/
def firstOccur (l : List Day) : List Day := firstOccurAux [] l

/-- The biggest-improver fold of renderCard4, starting from day null and
improvement -Infinity. -/
def biggestImprover (rows : List TrendRec) : Improver :=
  (firstOccur (rows.map (fun r => r.Day_of_Week))).foldl (improverStep rows)
    { day := none, improvement := JSNum.negInf }

theorem mem_firstOccurAux : ∀ (l : List Day) (seen : List Day) (d : Day),
    d ∈ l → d ∉ seen → d ∈ firstOccurAux seen l := by
  intro l
  induction l with
  | nil => intro seen d h; cases h
  | cons x xs ih =>
    intro seen d hd hnseen
    rcases List.mem_cons.mp hd with rfl | hd'
    · by_cases hx : d ∈ seen
      · exact absurd hx hnseen
      · simp only [firstOccurAux, if_neg hx]
        exact List.mem_cons_self d _
    · by_cases hx : x ∈ seen
      · simp only [firstOccurAux, if_pos hx]
        exact ih seen d hd' hnseen
      · simp only [firstOccurAux, if_neg hx]
        by_cases hdx : d = x
        · subst hdx
          exact List.mem_cons_self d _
        · refine List.mem_cons_of_mem x (ih (x :: seen) d hd' ?_)
          intro hmem
          rcases List.mem_cons.mp hmem with h | h
          · exact hdx h
          · exact hnseen h

theorem mem_firstOccur {l : List Day} {d : Day} (h : d ∈ l) : d ∈ firstOccur l :=
  mem_firstOccurAux l [] d h (by simp)

theorem headD_mem {α : Type} {l : List α} (h : l ≠ []) (d : α) : l.headD d ∈ l := by
  cases l with
  | nil => exact absurd rfl h
  | cons x xs => exact List.mem_cons_self x xs

theorem getLastD_mem {α : Type} : ∀ (l : List α) (d : α), l ≠ [] → l.getLastD d ∈ l := by
  intro l
  induction l with
  | nil => intro d h; exact absurd rfl h
  | cons x xs ih =>
    intro d _
    rw [List.getLastD_cons]
    cases hxs : xs with
    | nil => subst hxs; simp [List.getLastD]
    | cons y ys =>
      subst hxs
      exact List.mem_cons_of_mem x (ih x (by simp))

/-- The value of a JSNum in WithBot of the rationals; faithful on the finite
numbers and -Infinity, the only values the improver accumulator takes. -/
def jsLower : JSNum → WithBot ℚ
  | JSNum.num q => (q : WithBot ℚ)
  | _ => ⊥

/-- The JSNum values that occur as improver improvements. -/
def IsImpVal (x : JSNum) : Prop := x = JSNum.negInf ∨ ∃ q, x = JSNum.num q

theorem jsGtB_eq_decide {x y : JSNum} (hx : IsImpVal x) (hy : IsImpVal y) :
    jsGtB x y = decide (jsLower y < jsLower x) := by
  rcases hx with rfl | ⟨a, rfl⟩ <;> rcases hy with rfl | ⟨b, rfl⟩ <;>
    simp [jsGtB, jsLower, WithBot.bot_lt_coe, WithBot.coe_lt_coe]

/-- On a weekday with more than one point and a dataset whose normalized
times are all finite numbers, the improvement is a finite number. -/
theorem dayImprovement_num {rows : List TrendRec}
    (hnum : ∀ r ∈ rows, ∃ q, r.normalized_time = JSNum.num q)
    {d : Day} (hc : 1 < (dayRecords rows d).length) :
    ∃ q, dayImprovement rows d = JSNum.num q := by
  have hperm : List.Perm (sortDoy (dayRecords rows d)) (dayRecords rows d) :=
    List.perm_insertionSort _ _
  have hne : sortDoy (dayRecords rows d) ≠ [] := by
    intro h
    have := hperm.length_eq
    rw [h] at this
    simp at this
    omega
  have hmemrows : ∀ x ∈ sortDoy (dayRecords rows d), x ∈ rows := by
    intro x hx
    exact (List.mem_filter.mp (hperm.subset hx)).1
  rcases hnum _ (hmemrows _ (headD_mem hne defaultTrendRec)) with ⟨q1, hq1⟩
  rcases hnum _ (hmemrows _ (getLastD_mem _ defaultTrendRec hne)) with ⟨q2, hq2⟩
  refine ⟨q1 - q2, ?_⟩
  rw [dayImprovement, hq1, hq2]
  exact rfl

/-- Invariant of the biggest-improver accumulator: it is the initial value,
or it holds a considered weekday together with that weekday's finite
improvement. -/
def ImproverInv (rows : List TrendRec) (acc : Improver) : Prop :=
  acc = ⟨none, JSNum.negInf⟩ ∨
    ∃ d0 q0, acc.day = some d0 ∧ 1 < (dayRecords rows d0).length ∧
      acc.improvement = dayImprovement rows d0 ∧
      dayImprovement rows d0 = JSNum.num q0

theorem improverInv_val {rows : List TrendRec} {acc : Improver}
    (h : ImproverInv rows acc) : IsImpVal acc.improvement := by
  rcases h with rfl | ⟨d0, q0, _, _, himpr, hq0⟩
  · exact Or.inl rfl
  · exact Or.inr ⟨q0, himpr.trans hq0⟩

theorem improver_fold_spec (rows : List TrendRec)
    (hnum : ∀ d, 1 < (dayRecords rows d).length →
      ∃ q, dayImprovement rows d = JSNum.num q) :
    ∀ (ds : List Day) (acc : Improver), ImproverInv rows acc →
      ImproverInv rows (ds.foldl (improverStep rows) acc) ∧
      (∀ d ∈ ds, 1 < (dayRecords rows d).length →
        jsLower (dayImprovement rows d) ≤
          jsLower ((ds.foldl (improverStep rows) acc).improvement)) ∧
      jsLower acc.improvement ≤
        jsLower ((ds.foldl (improverStep rows) acc).improvement) := by
  intro ds
  induction ds with
  | nil =>
    intro acc hinv
    refine ⟨hinv, ?_, le_refl _⟩
    intro d hd
    cases hd
  | cons d ds ih =>
    intro acc hinv
    rw [List.foldl_cons]
    by_cases hc : 1 < (dayRecords rows d).length
    · rcases hnum d hc with ⟨q, hq⟩
      have haccval : IsImpVal acc.improvement := improverInv_val hinv
      by_cases hgt : jsGtB (dayImprovement rows d) acc.improvement = true
      · have hstep : improverStep rows acc d =
            ⟨some d, dayImprovement rows d⟩ := by
          simp [improverStep, hc, hgt]
        rw [hstep]
        have hinv' : ImproverInv rows ⟨some d, dayImprovement rows d⟩ :=
          Or.inr ⟨d, q, rfl, hc, rfl, hq⟩
        rcases ih _ hinv' with ⟨hres, hmin, hmono⟩
        refine ⟨hres, ?_, ?_⟩
        · intro e he hce
          rcases List.mem_cons.mp he with rfl | he'
          · exact hmono
          · exact hmin e he' hce
        · have hlt : jsLower acc.improvement < jsLower (dayImprovement rows d) := by
            have heq := jsGtB_eq_decide (x := dayImprovement rows d)
              (y := acc.improvement) (Or.inr ⟨q, hq⟩) haccval
            rw [heq] at hgt
            exact of_decide_eq_true hgt
          exact le_trans (le_of_lt hlt) hmono
      · have hstep : improverStep rows acc d = acc := by
          simp only [improverStep, if_pos hc]
          rw [if_neg hgt]
        rw [hstep]
        rcases ih acc hinv with ⟨hres, hmin, hmono⟩
        refine ⟨hres, ?_, hmono⟩
        intro e he hce
        rcases List.mem_cons.mp he with rfl | he'
        · have hled : jsLower (dayImprovement rows e) ≤ jsLower acc.improvement := by
            have heq := jsGtB_eq_decide (x := dayImprovement rows e)
              (y := acc.improvement) (Or.inr ⟨q, hq⟩) haccval
            rw [heq] at hgt
            exact le_of_not_lt (fun hl => hgt (decide_eq_true hl))
          exact le_trans hled hmono
        · exact hmin e he' hce
    · have hstep : improverStep rows acc d = acc := by
        simp [improverStep, hc]
      rw [hstep]
      rcases ih acc hinv with ⟨hres, hmin, hmono⟩
      refine ⟨hres, ?_, hmono⟩
      intro e he hce
      rcases List.mem_cons.mp he with rfl | he'
      · exact absurd hce hc
      · exact hmin e he' hce

/-- A considered weekday occurs in the iteration order of the group map. -/
theorem considered_mem_firstOccur {rows : List TrendRec} {d : Day}
    (hc : 1 < (dayRecords rows d).length) :
    d ∈ firstOccur (rows.map (fun r => r.Day_of_Week)) := by
  have hpos : 0 < (dayRecords rows d).length := lt_trans Nat.zero_lt_one hc
  rcases List.exists_mem_of_length_pos hpos with ⟨r, hr⟩
  have hfil := List.mem_filter.mp hr
  have hday : r.Day_of_Week = d := by simpa using hfil.2
  have : d ∈ rows.map (fun r => r.Day_of_Week) := by
    rcases List.mem_map.mpr ⟨r, hfil.1, hday⟩ with h
    exact h
  exact mem_firstOccur this

/-- C2: over a normalized trend dataset (every normalized_time a finite
number), the biggest-improver loop of renderCard4 considers exactly the
weekdays with more than one point; each considered weekday's improvement is
the first normalized_time of its day_of_year-sorted records minus the last;
when some weekday is considered the loop reports a considered weekday whose
improvement is maximal (no other considered weekday compares strictly
greater, even when all improvements are negative); and a reported weekday
always is a considered one carrying its own improvement. -/
theorem c2_biggest_improver
    (rows : List TrendRec)
    (hnum : ∀ r ∈ rows, ∃ q, r.normalized_time = JSNum.num q) :
    ((∃ d, 1 < (dayRecords rows d).length) → ∃ d q,
      (biggestImprover rows).day = some d ∧
      1 < (dayRecords rows d).length ∧
      (biggestImprover rows).improvement = dayImprovement rows d ∧
      dayImprovement rows d = JSNum.num q ∧
      (∀ e, 1 < (dayRecords rows e).length →
        jsGtB (dayImprovement rows e) (dayImprovement rows d) = false)) ∧
    (∀ d, (biggestImprover rows).day = some d →
      1 < (dayRecords rows d).length ∧
      (biggestImprover rows).improvement = dayImprovement rows d) ∧
    (∀ d, dayImprovement rows d =
      jsSub ((sortDoy (dayRecords rows d)).headD defaultTrendRec).normalized_time
        ((sortDoy (dayRecords rows d)).getLastD defaultTrendRec).normalized_time) := by
  have hnumday : ∀ d, 1 < (dayRecords rows d).length →
      ∃ q, dayImprovement rows d = JSNum.num q :=
    fun d hc => dayImprovement_num hnum hc
  rcases improver_fold_spec rows hnumday
      (firstOccur (rows.map (fun r => r.Day_of_Week)))
      ⟨none, JSNum.negInf⟩ (Or.inl rfl) with ⟨hres, hmin, _hmono⟩
  refine ⟨?_, ?_, fun d => rfl⟩
  · rintro ⟨d, hc⟩
    rcases hnumday d hc with ⟨q, hq⟩
    have hdmem := considered_mem_firstOccur hc
    have hlb := hmin d hdmem hc
    rcases hres with hinit | ⟨d0, q0, hday, hc0, himpr, hq0⟩
    · exfalso
      rw [hinit, hq] at hlb
      have hb : (q : WithBot ℚ) ≤ (⊥ : WithBot ℚ) := hlb
      simp at hb
    · refine ⟨d0, q0, hday, hc0, himpr, hq0, ?_⟩
      intro e hce
      have hlbe := hmin e (considered_mem_firstOccur hce) hce
      rcases hnumday e hce with ⟨qe, hqe⟩
      have heq := jsGtB_eq_decide (x := dayImprovement rows e)
        (y := dayImprovement rows d0) (Or.inr ⟨qe, hqe⟩) (Or.inr ⟨q0, hq0⟩)
      rw [heq]
      have : jsLower (dayImprovement rows e) ≤ jsLower (dayImprovement rows d0) := by
        rw [← himpr]
        exact hlbe
      simp [decide_eq_false (not_lt.mpr this)]
  · intro d hday
    rcases hres with hinit | ⟨d0, q0, hday0, hc0, himpr, _hq0⟩
    · have h0 : (biggestImprover rows).day = none := congrArg Improver.day hinit
      rw [hday] at h0
      cases h0
    · have h1 : some d0 = some d := hday0.symm.trans hday
      injection h1 with h
      subst h
      exact ⟨hc0, himpr⟩

/-- A normalized dataset with two Mon points and one Tue point. -/
def c2Rows : List TrendRec :=
  [⟨5, Day.Mon, 10, JSNum.num 100⟩, ⟨200, Day.Mon, 6, JSNum.num 60⟩,
   ⟨10, Day.Tue, 8, JSNum.num 100⟩]

/-- Witness for C2 at a concrete normalized dataset. -/
theorem c2_biggest_improver_witness :
    ((∃ d, 1 < (dayRecords c2Rows d).length) → ∃ d q,
      (biggestImprover c2Rows).day = some d ∧
      1 < (dayRecords c2Rows d).length ∧
      (biggestImprover c2Rows).improvement = dayImprovement c2Rows d ∧
      dayImprovement c2Rows d = JSNum.num q ∧
      (∀ e, 1 < (dayRecords c2Rows e).length →
        jsGtB (dayImprovement c2Rows e) (dayImprovement c2Rows d) = false)) ∧
    (∀ d, (biggestImprover c2Rows).day = some d →
      1 < (dayRecords c2Rows d).length ∧
      (biggestImprover c2Rows).improvement = dayImprovement c2Rows d) ∧
    (∀ d, dayImprovement c2Rows d =
      jsSub ((sortDoy (dayRecords c2Rows d)).headD defaultTrendRec).normalized_time
        ((sortDoy (dayRecords c2Rows d)).getLastD defaultTrendRec).normalized_time) :=
  c2_biggest_improver c2Rows (by
    intro r hr
    fin_cases hr <;> exact ⟨_, rfl⟩)

theorem ratTrunc_intCast (z : ℤ) : ratTrunc (z : ℚ) = z := by
  unfold ratTrunc
  by_cases h : (0 : ℚ) ≤ (z : ℚ)
  · rw [if_pos h, Int.floor_intCast]
  · rw [if_neg h, Int.ceil_intCast]

/-- Coercing a record that already went through coercion and normalization
changes nothing: parseInt of an integer-valued day_of_year is that value. -/
theorem coerceRec_normalizeRecord (m : List TrendRec) (r : TrendRec) :
    coerceRec (normalizeRecord m (coerceRec r)) = normalizeRecord m (coerceRec r) := by
  cases r
  simp [coerceRec, normalizeRecord, ratTrunc_intCast]

theorem filter_map_fields (f : TrendRec → TrendRec)
    (hday : ∀ r, (f r).Day_of_Week = r.Day_of_Week)
    (havg : ∀ r, (f r).average_time_min = r.average_time_min)
    (rows : List TrendRec) (d : Day) :
    ((rows.map f).filter (fun r => decide (r.Day_of_Week = d))).map
        (fun r => r.average_time_min) =
      (rows.filter (fun r => decide (r.Day_of_Week = d))).map
        (fun r => r.average_time_min) := by
  induction rows with
  | nil => rfl
  | cons x xs ih =>
    simp only [List.map_cons, List.filter_cons, hday x]
    by_cases hx : x.Day_of_Week = d
    · simp [hx, havg x, ih]
    · simp [hx, ih]

/-- The per-weekday maximum depends only on the Day_of_Week and
average_time_min fields, which normalization preserves. -/
theorem maxTimeByDay_map (f : TrendRec → TrendRec)
    (hday : ∀ r, (f r).Day_of_Week = r.Day_of_Week)
    (havg : ∀ r, (f r).average_time_min = r.average_time_min)
    (rows : List TrendRec) (d : Day) :
    maxTimeByDay (rows.map f) d = maxTimeByDay rows d := by
  unfold maxTimeByDay
  rw [filter_map_fields f hday havg rows d]

theorem normalizeRecord_congr {m1 m2 : List TrendRec} (x : TrendRec)
    (h : maxTimeByDay m2 x.Day_of_Week = maxTimeByDay m1 x.Day_of_Week) :
    normalizeRecord m2 x = normalizeRecord m1 x := by
  unfold normalizeRecord
  rw [h]

/-- Re-normalizing simply overwrites the normalized_time field. -/
theorem normalizeRecord_overwrite (m m' : List TrendRec) (x : TrendRec) :
    normalizeRecord m (normalizeRecord m' x) = normalizeRecord m x := by
  cases x
  simp [normalizeRecord]

/-- Running the normalization pass twice equals running it once. -/
theorem normalizeRows_idem (c : List TrendRec) :
    normalizeRows (normalizeRows c) = normalizeRows c := by
  unfold normalizeRows
  have hmax : ∀ d, maxTimeByDay (List.map (normalizeRecord c) c) d = maxTimeByDay c d :=
    fun d => maxTimeByDay_map (normalizeRecord c) (fun _ => rfl) (fun _ => rfl) c d
  have h1 : List.map (normalizeRecord (List.map (normalizeRecord c) c))
        (List.map (normalizeRecord c) c) =
      List.map (normalizeRecord c) (List.map (normalizeRecord c) c) :=
    List.map_congr_left (fun a _ => normalizeRecord_congr a (hmax a.Day_of_Week))
  rw [h1, List.map_map]
  exact List.map_congr_left (fun a _ => normalizeRecord_overwrite c c a)

/-- C7: the coercion-plus-normalization pass of renderCard4 is idempotent on
any record array, every field included, and consequently the
biggest-improver selection computed after one pass or after two passes of
the same input is the same; both computations are pure functions of the
records, with no dependence on wall-clock time or run count. -/
theorem c7_card4_idempotent (rows : List TrendRec) :
    card4Pass (card4Pass rows) = card4Pass rows ∧
    biggestImprover (card4Pass (card4Pass rows)) = biggestImprover (card4Pass rows) := by
  have hfix : (card4Pass rows).map coerceRec = card4Pass rows := by
    unfold card4Pass normalizeRows
    rw [List.map_map]
    apply List.map_congr_left
    intro a ha
    rcases List.mem_map.mp ha with ⟨r, _, rfl⟩
    exact coerceRec_normalizeRecord (rows.map coerceRec) r
  have hpass : card4Pass (card4Pass rows) = card4Pass rows := by
    show normalizeRows ((card4Pass rows).map coerceRec) = card4Pass rows
    rw [hfix]
    exact normalizeRows_idem (rows.map coerceRec)
  exact ⟨hpass, by rw [hpass]⟩

end XwordWrapped
